import Mathlib

/-!
Verification of the HireSense-AI matching engine
(`src/backend/src/services/matching.service.js`, the scoring configuration in
`src/backend/src/config/index.js`, the resume-side skill normalizer in
`src/backend/src/services/resumeIntelligence.service.js`, and candidate
comparison in the ranking service).

Strings are modelled as `List Char`; JavaScript numbers as `ℚ` (all the
arithmetic the engine performs on scores is exact decimal arithmetic, embedded
exactly in `ℚ`); `Math.round` as `jsRound` (round half toward +∞);
absent / `undefined` fields as `Option`; JavaScript falsiness of `0` and of the
empty string is modelled explicitly at each `||` site.
-/

abbrev Str := List Char

/-- JavaScript `Math.round`: round half toward positive infinity. -/
def jsRound (q : ℚ) : ℤ := Rat.floor (q + 1 / 2)

theorem jsRound_eq_floor (q : ℚ) : jsRound q = ⌊q + 1 / 2⌋ :=
  (Rat.floor_def' _).trans Rat.floor_def.symm

theorem jsRound_eq_of {q : ℚ} (z : ℤ) (h1 : (z : ℚ) ≤ q + 1 / 2)
    (h2 : q + 1 / 2 < z + 1) : jsRound q = z := by
  rw [jsRound_eq_floor]
  exact Int.floor_eq_iff.mpr ⟨h1, by exact_mod_cast h2⟩

theorem jsRound_nonneg {q : ℚ} (h : 0 ≤ q) : 0 ≤ jsRound q := by
  rw [jsRound_eq_floor]
  positivity

/-- JavaScript `hay.includes(needle)`: substring test. -/
def strContains (hay needle : Str) : Bool :=
  match hay with
  | [] => needle.isEmpty
  | c :: rest => needle.isPrefixOf (c :: rest) || strContains rest needle

/-- Characters removed by the normalizer's regex `[.\-_\s]`
    (dot, dash, underscore, whitespace). -/
def isStripChar (c : Char) : Bool :=
  c == '.' || c == '-' || c == '_' ||
  c == ' ' || c == '\t' || c == '\n' || c == '\r' || c == '\x0b' || c == '\x0c'

/-- `.replace(/[.\-_\s]/g, '')`. -/
def stripChars (l : Str) : Str := l.filter (fun c => !isStripChar c)

/-- `.replace(/js$/i, 'javascript')`: rewrite a trailing `js`. -/
def jsSuffixRule (l : Str) : Str :=
  if ['j', 's'].isSuffixOf l then l.take (l.length - 2) ++ "javascript".toList else l

/-- `.replace(/^js/i, 'javascript')`: rewrite a leading `js`
    (resume-side normalizer only). -/
def jsLeadRule (l : Str) : Str :=
  if ['j', 's'].isPrefixOf l then "javascript".toList ++ l.drop 2 else l

/-- `.replace(/pat/i, repl)` for a literal pattern: replace the leftmost
    occurrence of `pat`, if any. -/
def replaceFirst (pat repl : Str) : Str → Str
  | [] => []
  | c :: rest =>
    if pat.isPrefixOf (c :: rest) then repl ++ (c :: rest).drop pat.length
    else c :: replaceFirst pat repl rest

/-- `MatchingService.normalizeSkillName` (matching.service.js lines 145-153):
    lower-case, strip `[.\-_\s]`, then `js$`→`javascript`,
    `reactjs`→`react`, `nodejs`→`node`, applied in this order.
    Falsy (empty) input returns the empty token. -/
def normalizeSkillName (s : Str) : Str :=
  if s.isEmpty then []
  else
    replaceFirst "nodejs".toList "node".toList
      (replaceFirst "reactjs".toList "react".toList
        (jsSuffixRule (stripChars (s.map Char.toLower))))

/-- `ResumeIntelligenceService.normalizeSkillName`
    (resumeIntelligence.service.js lines 116-130): lower-case, strip
    `[.\-_]` and `\s+`, then `js$`→`javascript`, `^js`→`javascript`,
    `reactjs`→`react`, `nodejs`→`node`, `vuejs`→`vue`,
    `angularjs`→`angular`, in this order (the final `.trim()` is the
    identity: no whitespace survives the strip and none is introduced). -/
def normalizeSkillNameRI (s : Str) : Str :=
  if s.isEmpty then []
  else
    replaceFirst "angularjs".toList "angular".toList
      (replaceFirst "vuejs".toList "vue".toList
        (replaceFirst "nodejs".toList "node".toList
          (replaceFirst "reactjs".toList "react".toList
            (jsLeadRule (jsSuffixRule (stripChars (s.map Char.toLower)))))))

/-! ### Data model (structured JD and structured resume) -/

/-- A skill entry of a structured JD (`required_skills` / `preferred_skills`).
    `normalized` and `importance` may be absent. -/
structure Skill where
  name : Str
  normalized : Option Str
  importance : Option ℚ
deriving DecidableEq

/-- `skill.normalized || skill.name`: the empty string is falsy in JS. -/
def skillKey (s : Skill) : Str :=
  match s.normalized with
  | none => s.name
  | some n => if n.isEmpty then s.name else n

/-- `skill.importance || dflt`: `0`, like absence, is falsy and takes the
    default. -/
def effImportance (dflt : ℚ) (s : Skill) : ℚ :=
  match s.importance with
  | none => dflt
  | some v => if v = 0 then dflt else v

/-- `jd.experience` sub-object. -/
structure ExpReq where
  min_years : Option ℚ
  max_years : Option ℚ
  required_domains : Option (List Str)
deriving DecidableEq

/-- `jd.education` sub-object. -/
structure EduReq where
  min_degree : Option Str
  preferred_degree : Option Str
  required_fields : Option (List Str)
deriving DecidableEq

/-- Structured job description (the fields the scoring engine reads). -/
structure JD where
  required_skills : Option (List Skill)
  preferred_skills : Option (List Skill)
  experience : Option ExpReq
  education : Option EduReq
deriving DecidableEq

/-- A resume project entry (the scoring engine only reads `technologies`). -/
structure Project where
  technologies : Option (List Str)
deriving DecidableEq

/-- A resume education entry (the scoring engine only reads `field`). -/
structure EduEntry where
  field : Option Str
deriving DecidableEq

/-- `resume._computed`, produced by the resume-intelligence service. -/
structure Computed where
  skill_set : Option (List Str)
  technology_set : Option (List Str)
  total_experience_years : Option ℚ
  domains : Option (List Str)
  highest_degree : Option Str
deriving DecidableEq

/-- Structured resume (the fields the scoring engine reads). -/
structure Resume where
  comp : Option Computed
  projects : Option (List Project)
  education : Option (List EduEntry)
deriving DecidableEq

/-! ### The scoring engine (`MatchingService`) -/

/-- `new Set([...skill_set, ...technology_set])`: the candidate's token set.
    Modelled as a list; only membership and iteration are used, so
    duplicates are irrelevant. -/
def candidateSkills (r : Resume) : List Str :=
  ((r.comp.bind Computed.skill_set).getD []) ++
  ((r.comp.bind Computed.technology_set).getD [])

/-- `MatchingService.hasSkill` (lines 124-140): exact token-set membership of
    the normalized name, else bidirectional substring containment against
    each candidate token. -/
def hasSkill (cand : List Str) (skillName : Str) : Bool :=
  let normalized := normalizeSkillName skillName
  cand.contains normalized ||
    cand.any (fun t => strContains t normalized || strContains normalized t)

/-- One iteration of the required/preferred loop of `calculateSkillsScore`:
    accumulate (score, maxScore). -/
def skillStep (cand : List Str) (dflt : ℚ) (p : ℚ × ℚ) (s : Skill) : ℚ × ℚ :=
  let imp := effImportance dflt s
  (if hasSkill cand (skillKey s) then p.1 + imp else p.1, p.2 + imp)

/-- `MatchingService.calculateSkillsScore` (lines 73-119). -/
def calculateSkillsScore (jd : JD) (r : Resume) : ℤ :=
  let cand := candidateSkills r
  let required := jd.required_skills.getD []
  let reqAcc := required.foldl (skillStep cand 3) (0, 0)
  let requiredMatchRate : ℚ := if reqAcc.2 > 0 then reqAcc.1 / reqAcc.2 else 1
  let preferred := jd.preferred_skills.getD []
  let prefAcc := preferred.foldl (skillStep cand 2) (0, 0)
  let preferredMatchRate : ℚ := if prefAcc.2 > 0 then prefAcc.1 / prefAcc.2 else 1
  jsRound ((requiredMatchRate * 0.7 + preferredMatchRate * 0.3) * 100)

/-- Case-insensitive bidirectional substring containment used for domains
    and education fields. -/
def biContains (a b : Str) : Bool :=
  strContains (a.map Char.toLower) (b.map Char.toLower) ||
  strContains (b.map Char.toLower) (a.map Char.toLower)

/-- `MatchingService.calculateExperienceScore` (lines 160-197). -/
def calculateExperienceScore (jd : JD) (r : Resume) : ℤ :=
  let requiredYears : ℚ := (jd.experience.bind ExpReq.min_years).getD 0
  let maxYears : Option ℚ := jd.experience.bind ExpReq.max_years
  let candidateYears : ℚ := (r.comp.bind Computed.total_experience_years).getD 0
  let yearsScore : ℚ :=
    if candidateYears ≥ requiredYears then
      match maxYears with
      | some m =>
        if ¬ m = 0 ∧ candidateYears > m + 3 then
          100 - min 20 ((candidateYears - m - 3) * 5)
        else 100
      | none => 100
    else jsRound (candidateYears / requiredYears * 100)
  let requiredDomains := (jd.experience.bind ExpReq.required_domains).getD []
  let candidateDomains := (r.comp.bind Computed.domains).getD []
  let domainBonus : ℚ :=
    if 0 < requiredDomains.length then
      ((requiredDomains.filter
          (fun d => candidateDomains.any (fun cd => biContains cd d))).length : ℚ) /
        (requiredDomains.length : ℚ) * 10
    else 0
  min 100 (jsRound (yearsScore + domainBonus))

/-- Relevance fraction of one project: matched technology tokens over
    `max(projectTechs.length, 1)`. -/
def projectRelevance (reqNorm : List Str) (p : Project) : ℚ :=
  let techs := (p.technologies.getD []).map normalizeSkillName
  let matched := techs.filter
    (fun t => reqNorm.any (fun rs => strContains t rs || strContains rs t))
  (matched.length : ℚ) / (max techs.length 1 : ℚ)

/-- One iteration of the project loop: accumulate
    (relevantProjects, totalRelevance). -/
def projectStep (reqNorm : List Str) (p : ℕ × ℚ) (proj : Project) : ℕ × ℚ :=
  let techs := (proj.technologies.getD []).map normalizeSkillName
  let matched := techs.filter
    (fun t => reqNorm.any (fun rs => strContains t rs || strContains rs t))
  if 0 < matched.length then
    (p.1 + 1, p.2 + (matched.length : ℚ) / (max techs.length 1 : ℚ))
  else p

/-- `MatchingService.calculateProjectsScore` (lines 204-241). -/
def calculateProjectsScore (jd : JD) (r : Resume) : ℤ :=
  let projects := r.projects.getD []
  if projects.length = 0 then 50
  else
    let reqNorm := (jd.required_skills.getD []).map
      (fun s => normalizeSkillName (skillKey s))
    let acc := projects.foldl (projectStep reqNorm) (0, 0)
    if 0 < acc.1 then
      jsRound (60 + min 40 (acc.2 / (projects.length : ℚ) * 100))
    else jsRound 40

/-- `o || dflt` for an optional string: absent or empty is falsy. -/
def strOr (o : Option Str) (dflt : Str) : Str :=
  match o with
  | none => dflt
  | some s => if s.isEmpty then dflt else s

/-- The degree-ranking table of `calculateEducationScore`; unknown keys
    rank 0 (the `|| 0` fallback). -/
def degreeRank (d : Str) : ℚ :=
  if d = "phd".toList then 5
  else if d = "master".toList then 4
  else if d = "bachelor".toList then 3
  else if d = "associate".toList then 2
  else if d = "certification".toList then 1
  else if d = "unknown".toList then 1
  else 0

/-- `MatchingService.calculateEducationScore` (lines 248-296).
    `degreeRanking[k] || 0` is `degreeRank`; note `high_school` and `none`
    rank 0 exactly like unknown keys, so the table lookup collapses to
    `degreeRank`. `preferredRank`'s `|| requiredRank` fallback fires when
    the preferred degree ranks 0 (0 is falsy). -/
def calculateEducationScore (jd : JD) (r : Resume) : ℤ :=
  let requiredDegree := strOr (jd.education.bind EduReq.min_degree) "none".toList
  let preferredDegree := strOr (jd.education.bind EduReq.preferred_degree) requiredDegree
  let candidateDegree := strOr (r.comp.bind Computed.highest_degree) "unknown".toList
  let requiredRank := degreeRank requiredDegree
  let preferredRank := if degreeRank preferredDegree = 0 then requiredRank
    else degreeRank preferredDegree
  let candidateRank := degreeRank candidateDegree
  let degreeScore : ℚ :=
    if candidateRank ≥ preferredRank then 100
    else if candidateRank ≥ requiredRank then 80
    else jsRound (candidateRank / max requiredRank 1 * 70)
  let requiredFields := ((jd.education.bind EduReq.required_fields).getD []).map
    (fun f => f.map Char.toLower)
  let score : ℚ :=
    match r.education with
    | some edu =>
      if 0 < requiredFields.length then
        let candidateFields := edu.map (fun e => (e.field.getD []).map Char.toLower)
        if requiredFields.any (fun rf => candidateFields.any
            (fun cf => strContains cf rf || strContains rf cf)) then
          min 100 (degreeScore + 10)
        else degreeScore
      else degreeScore
    | none => degreeScore
  jsRound score

/-! ### Weighted total and calculateMatch -/

/-- `config.scoring.weights` (config/index.js): skills 50%, experience 25%,
    projects 15%, education 10%. -/
structure Weights where
  skills : ℚ
  experience : ℚ
  projects : ℚ
  education : ℚ

def configWeights : Weights := { skills := 0.50, experience := 0.25, projects := 0.15, education := 0.10 }

/-- The weighted-total computation of `calculateMatch` (lines 37-42). -/
def calcTotalScore (s e p ed : ℤ) : ℤ :=
  jsRound ((s : ℚ) * configWeights.skills + (e : ℚ) * configWeights.experience +
    (p : ℚ) * configWeights.projects + (ed : ℚ) * configWeights.education)

/-- The numeric score record returned by `calculateMatch`. -/
structure Scores where
  total : ℤ
  skills : ℤ
  experience : ℤ
  projects : ℤ
  education : ℤ
deriving DecidableEq

/-- The four dimension scores plus the weighted total, exactly as
    `calculateMatch` computes them. -/
def matchScores (jd : JD) (r : Resume) : Scores :=
  let s := calculateSkillsScore jd r
  let e := calculateExperienceScore jd r
  let p := calculateProjectsScore jd r
  let ed := calculateEducationScore jd r
  { total := calcTotalScore s e p ed, skills := s, experience := e, projects := p, education := ed }

/-! ### Explanation generation and its fallback (`generateExplanation`) -/

/-- Failure modes of the explanation collaborator (the Perplexity client):
    timeout, malformed output, non-2xx response. -/
inductive CollabErr where
  | timeout
  | malformedOutput
  | httpError (status : ℕ)
deriving DecidableEq

/-- The explanation object (summary, strengths, gaps, recommendation). -/
structure Explanation where
  summary : Str
  strengths : List Str
  gaps : List Str
  recommendation : Str
deriving DecidableEq

/-- The deterministic fallback explanation built in the `catch` branch of
    `generateExplanation` (lines 401-410), purely from the numeric scores. -/
def fallbackExplanation (totalScore : ℤ) : Explanation :=
  { summary := "Candidate scored ".toList ++ (toString totalScore).toList ++
      "/100 based on weighted evaluation of skills, experience, projects, and education.".toList
    strengths := []
    gaps := []
    recommendation := if totalScore ≥ 70 then "hire".toList else "maybe".toList }

/-- `generateExplanation` (lines 361-411): the collaborator call is wrapped in
    `try/catch`; any failure is replaced by the deterministic fallback, so the
    function is total and never propagates a collaborator error. -/
def generateExplanation (collab : Except CollabErr Explanation) (totalScore : ℤ) : Explanation :=
  match collab with
  | .ok e => e
  | .error _ => fallbackExplanation totalScore

/-- The part of the `calculateMatch` result relevant to scoring. -/
structure MatchResult where
  scores : Scores
  explanation : Explanation
deriving DecidableEq

/-- `calculateMatch` (lines 29-65), with the collaborator's outcome passed as
    a parameter: dimension scores, weighted total, and the explanation
    (LLM-produced or fallback). -/
def calculateMatch (collab : Except CollabErr Explanation) (jd : JD) (r : Resume) : MatchResult :=
  let sc := matchScores jd r
  { scores := sc, explanation := generateExplanation collab sc.total }

/-! ### Candidate comparison (`RankingService.compareCandidates`) -/

/-- A stored candidate row as read by the ranking service. All five score
    columns are integers; the `|| 0` guards in the comparison are the
    identity on integer scores (`0 || 0 === 0`). -/
structure Candidate where
  id : Str
  name : Str
  score_total : ℤ
  score_skills : ℤ
  score_experience : ℤ
  score_projects : ℤ
  score_education : ℤ
deriving DecidableEq

/-- The four comparison dimensions (`['skills','experience','projects','education']`). -/
inductive Dim where
  | skills
  | experience
  | projects
  | education
deriving DecidableEq

def dimScore (d : Dim) (c : Candidate) : ℤ :=
  match d with
  | .skills => c.score_skills
  | .experience => c.score_experience
  | .projects => c.score_projects
  | .education => c.score_education

/-- `validCandidates.reduce((best, c) => c.score > best.score ? c : best)`:
    the reduce starts from the first element, and the strict `>` keeps the
    earlier candidate on ties. -/
def selectBest (key : Candidate → ℤ) (c : Candidate) (cs : List Candidate) : Candidate :=
  cs.foldl (fun best x => if key x > key best then x else best) c

/-- One dimension entry of the comparison matrix. -/
structure DimEntry where
  dimension : Dim
  scores : List (Str × ℤ)
  winner : Str
deriving DecidableEq

/-- The comparison matrix returned by `compareCandidates`. -/
structure Comparison where
  candidateIds : List Str
  dimensions : List DimEntry
  overallWinner : Str
deriving DecidableEq

/-- The comparison error: `Need at least 2 valid candidates to compare`. -/
inductive CompareError where
  | insufficientCandidates
deriving DecidableEq

/-- `RankingService.compareCandidates` (part_006 lines 301-343). The input is
    the list of `findById` results; `filter(Boolean)` drops unresolved ids. -/
def compareCandidates (resolved : List (Option Candidate)) : Except CompareError Comparison :=
  let valid := resolved.filterMap id
  match valid with
  | c₁ :: c₂ :: rest =>
    .ok
      { candidateIds := (c₁ :: c₂ :: rest).map Candidate.id
        dimensions := [Dim.skills, Dim.experience, Dim.projects, Dim.education].map
          (fun d =>
            { dimension := d
              scores := (c₁ :: c₂ :: rest).map (fun c => (c.id, dimScore d c))
              winner := (selectBest (dimScore d) c₁ (c₂ :: rest)).id })
        overallWinner := (selectBest Candidate.score_total c₁ (c₂ :: rest)).id }
  | _ => .error .insufficientCandidates

/-! ### Supporting lemmas -/

theorem strContains_iff {hay needle : Str} : strContains hay needle = true ↔ needle <:+: hay := by
  induction hay with
  | nil => simp [strContains, List.isEmpty_iff, List.infix_nil]
  | cons c rest ih =>
    simp [strContains, ih, List.infix_cons_iff, List.isPrefixOf_iff_prefix]

theorem toLower_of_isStripChar {c : Char} (h : isStripChar c = true) : Char.toLower c = c := by
  simp only [isStripChar, Bool.or_eq_true, beq_iff_eq] at h
  rcases h with (((((((h | h) | h) | h) | h) | h) | h) | h) | h <;> subst h <;> decide

theorem isStripChar_toLower {c : Char} (h : isStripChar c = true) :
    isStripChar (Char.toLower c) = true := by
  rw [toLower_of_isStripChar h]; exact h

theorem normalizeSkillName_eq_nil {x : Str} (h : ∀ c ∈ x, isStripChar c = true) :
    normalizeSkillName x = [] := by
  unfold normalizeSkillName
  split
  · rfl
  · have hstrip : stripChars (x.map Char.toLower) = [] := by
      refine List.filter_eq_nil_iff.mpr ?_
      intro a ha
      obtain ⟨c, hc, rfl⟩ := List.mem_map.mp ha
      simp [isStripChar_toLower (h c hc)]
    rw [hstrip]
    rfl

theorem jsRound_intCast (z : ℤ) : jsRound ((z : ℚ)) = z :=
  jsRound_eq_of z (by norm_num) (by norm_num)

/-! ### C5: the hasSkill membership / bidirectional-substring criterion -/

/-- C5: `hasSkill(S, n)` returns true iff the candidate token set contains
    `normalize(n)` exactly, or some candidate token is a substring of
    `normalize(n)`, or `normalize(n)` is a substring of some candidate token;
    in particular the compound spelling `reactnative` matches the required
    skill `react`. -/
theorem hasSkill_bidirectional_substring :
    (∀ (S : List Str) (n : Str),
      hasSkill S n = true ↔
        normalizeSkillName n ∈ S ∨
          ∃ t ∈ S, t <:+: normalizeSkillName n ∨ normalizeSkillName n <:+: t) ∧
    hasSkill ["reactnative".toList] "react".toList = true := by
  refine ⟨fun S n => ?_, by decide⟩
  simp only [hasSkill, Bool.or_eq_true, List.any_eq_true, strContains_iff,
    List.contains_iff_exists_mem_beq]
  constructor
  · rintro (⟨t, ht, hbeq⟩ | ⟨t, ht, h | h⟩)
    · exact Or.inl (by rw [eq_of_beq hbeq]; exact ht)
    · exact Or.inr ⟨t, ht, Or.inr h⟩
    · exact Or.inr ⟨t, ht, Or.inl h⟩
  · rintro (hmem | ⟨t, ht, h | h⟩)
    · exact Or.inl ⟨_, hmem, by simp⟩
    · exact Or.inr ⟨t, ht, Or.inr h⟩
    · exact Or.inr ⟨t, ht, Or.inl h⟩

/-! ### C10: a requirement whose name normalizes to the empty token always
    counts as matched against a non-empty candidate token set -/

/-- C10: for a non-empty candidate token set and a required name made only of
    stripped characters (dots, dashes, underscores, whitespace — or empty),
    the normalized name is the empty token, which is a substring of every
    candidate token, so `hasSkill` returns true. -/
theorem hasSkill_of_strip_only (S : List Str) (x : Str) (hS : S ≠ [])
    (hx : ∀ c ∈ x, isStripChar c = true) : hasSkill S x = true := by
  obtain ⟨t, ts, rfl⟩ : ∃ t ts, S = t :: ts := by
    cases S with
    | nil => exact absurd rfl hS
    | cons a b => exact ⟨a, b, rfl⟩
  simp only [hasSkill, normalizeSkillName_eq_nil hx, Bool.or_eq_true, List.any_eq_true]
  refine Or.inr ⟨t, by simp, ?_⟩
  simp [strContains_iff, List.nil_infix]

theorem hasSkill_of_strip_only_witness :
    (["python".toList] : List Str) ≠ [] ∧
    hasSkill ["python".toList] ". -_ ".toList = true :=
  ⟨by decide, hasSkill_of_strip_only ["python".toList] ". -_ ".toList (by decide) (by decide)⟩

/-! ### C1: the weighted total -/

/-- C1: the total score of `calculateMatch` is
    `round(skills*0.50 + experience*0.25 + projects*0.15 + education*0.10)`,
    and the fixed weight table sums to exactly 1.0 (within the startup
    validation tolerance of 0.001). -/
theorem calculateMatch_total_weighted :
    (∀ (jd : JD) (r : Resume),
      (matchScores jd r).total =
        jsRound ((calculateSkillsScore jd r : ℚ) * (50 / 100) +
          (calculateExperienceScore jd r : ℚ) * (25 / 100) +
          (calculateProjectsScore jd r : ℚ) * (15 / 100) +
          (calculateEducationScore jd r : ℚ) * (10 / 100))) ∧
    configWeights.skills + configWeights.experience + configWeights.projects +
        configWeights.education = 1 ∧
    |configWeights.skills + configWeights.experience + configWeights.projects +
        configWeights.education - 1| ≤ 1 / 1000 := by
  refine ⟨fun jd r => ?_, by norm_num [configWeights], by norm_num [configWeights]⟩
  simp only [matchScores, calcTotalScore, configWeights]
  norm_num

/-! ### C8: collaborator failure never breaks scoring -/

/-- C8: when the explanation collaborator fails, `calculateMatch` still
    returns the numeric score record — identical to the record under any
    collaborator outcome — and a deterministic fallback explanation built
    purely from the numeric scores, whose recommendation thresholds the
    total score at 70; the failure never becomes a scoring failure. -/
theorem calculateMatch_collab_failure (e : CollabErr) (jd : JD) (r : Resume)
    (collab : Except CollabErr Explanation) :
    (calculateMatch (.error e) jd r).scores = matchScores jd r ∧
    (calculateMatch (.error e) jd r).scores = (calculateMatch collab jd r).scores ∧
    (calculateMatch (.error e) jd r).explanation =
      fallbackExplanation (matchScores jd r).total ∧
    (calculateMatch (.error e) jd r).explanation.summary =
      "Candidate scored ".toList ++ (toString (matchScores jd r).total).toList ++
        "/100 based on weighted evaluation of skills, experience, projects, and education.".toList ∧
    (70 ≤ (matchScores jd r).total →
      (calculateMatch (.error e) jd r).explanation.recommendation = "hire".toList) ∧
    ((matchScores jd r).total < 70 →
      (calculateMatch (.error e) jd r).explanation.recommendation = "maybe".toList) := by
  refine ⟨rfl, rfl, rfl, rfl, fun h => ?_, fun h => ?_⟩
  · simp [calculateMatch, generateExplanation, fallbackExplanation, ge_iff_le, h]
  · have h' : ¬ ((matchScores jd r).total ≥ 70) := by omega
    simp [calculateMatch, generateExplanation, fallbackExplanation, if_neg h']

def jdEmpty : JD := ⟨none, none, none, none⟩

def rEmpty : Resume := ⟨none, none, none⟩

theorem calculateSkillsScore_empty : calculateSkillsScore jdEmpty rEmpty = 100 := by
  norm_num [calculateSkillsScore, jdEmpty, rEmpty]
  exact jsRound_eq_of 100 (by norm_num) (by norm_num)

theorem calculateExperienceScore_empty : calculateExperienceScore jdEmpty rEmpty = 100 := by
  have h100 : jsRound ((100 : ℚ)) = 100 := jsRound_eq_of 100 (by norm_num) (by norm_num)
  norm_num [calculateExperienceScore, jdEmpty, rEmpty]
  omega

theorem calculateProjectsScore_empty : calculateProjectsScore jdEmpty rEmpty = 50 := by
  norm_num [calculateProjectsScore, jdEmpty, rEmpty]

theorem calculateEducationScore_empty : calculateEducationScore jdEmpty rEmpty = 100 := by
  have h100 : jsRound ((100 : ℚ)) = 100 := jsRound_eq_of 100 (by norm_num) (by norm_num)
  simp +decide [calculateEducationScore, jdEmpty, rEmpty, strOr, degreeRank, h100]

theorem matchScores_empty : matchScores jdEmpty rEmpty = ⟨93, 100, 100, 50, 100⟩ := by
  simp only [matchScores, calcTotalScore, configWeights, calculateSkillsScore_empty,
    calculateExperienceScore_empty, calculateProjectsScore_empty, calculateEducationScore_empty]
  norm_num
  exact jsRound_eq_of 93 (by norm_num) (by norm_num)

/-! ### C2: the skills dimension -/

/-- Sum of effective importances over a skill list. -/
def importanceSum (dflt : ℚ) (l : List Skill) : ℚ := (l.map (effImportance dflt)).sum

/-- Sum of effective importances over the matched skills of a list. -/
def matchedImportanceSum (cand : List Str) (dflt : ℚ) (l : List Skill) : ℚ :=
  ((l.filter (fun s => hasSkill cand (skillKey s))).map (effImportance dflt)).sum

/-- The claim's match rate: matched importance over total importance,
    defined as 1 for an empty list. -/
def specRate (cand : List Str) (dflt : ℚ) (l : List Skill) : ℚ :=
  if l = [] then 1 else matchedImportanceSum cand dflt l / importanceSum dflt l

theorem skillFold_eq (cand : List Str) (dflt : ℚ) (l : List Skill) (a b : ℚ) :
    l.foldl (skillStep cand dflt) (a, b) =
      (a + matchedImportanceSum cand dflt l, b + importanceSum dflt l) := by
  induction l generalizing a b with
  | nil => simp [matchedImportanceSum, importanceSum]
  | cons s rest ih =>
    rw [List.foldl_cons, ih]
    simp only [skillStep, matchedImportanceSum, importanceSum, List.filter_cons,
      List.map_cons, List.sum_cons, Prod.mk.injEq]
    by_cases h : hasSkill cand (skillKey s) = true
    · simp only [h, if_true, List.map_cons, List.sum_cons]
      exact ⟨by ring_nf, by ring⟩
    · simp only [Bool.not_eq_true] at h
      simp only [h, Bool.false_eq_true, if_false]
      exact ⟨by ring_nf, by ring⟩

theorem effImportance_pos {dflt : ℚ} (hd : 0 < dflt) (s : Skill)
    (h : ∀ v, s.importance = some v → 0 ≤ v) : 0 < effImportance dflt s := by
  unfold effImportance
  cases hs : s.importance with
  | none => exact hd
  | some v =>
    by_cases hv : v = 0
    · simp [hv, hd]
    · have := h v hs
      simp only [if_neg hv]
      exact lt_of_le_of_ne this (Ne.symm hv)

theorem importanceSum_pos {dflt : ℚ} (hd : 0 < dflt) {l : List Skill} (hne : l ≠ [])
    (h : ∀ s ∈ l, ∀ v, s.importance = some v → 0 ≤ v) : 0 < importanceSum dflt l := by
  refine List.sum_pos _ ?_ (by simpa using hne)
  intro x hx
  obtain ⟨s, hs, rfl⟩ := List.mem_map.mp hx
  exact effImportance_pos hd s (h s hs)

/-- C2: the skills score equals
    `round((0.7*requiredRate + 0.3*preferredRate) * 100)` where each rate is
    matched importance over total importance (defaults 3 required / 2
    preferred, empty list rate 1); when no required skill matches, the score
    is `round(0.7*0*100 + 0.3*preferredRate*100)`. Importances are
    assumed non-negative (the code additionally treats an explicit `0` as
    absent, like every falsy value). -/
theorem calculateSkillsScore_spec (jd : JD) (r : Resume)
    (hreq : ∀ s ∈ jd.required_skills.getD [], ∀ v, s.importance = some v → 0 ≤ v)
    (hpref : ∀ s ∈ jd.preferred_skills.getD [], ∀ v, s.importance = some v → 0 ≤ v) :
    calculateSkillsScore jd r =
      jsRound ((0.7 * specRate (candidateSkills r) 3 (jd.required_skills.getD []) +
        0.3 * specRate (candidateSkills r) 2 (jd.preferred_skills.getD [])) * 100) ∧
    ((jd.required_skills.getD [] ≠ [] ∧
        ∀ s ∈ jd.required_skills.getD [],
          hasSkill (candidateSkills r) (skillKey s) = false) →
      calculateSkillsScore jd r =
        jsRound (0.7 * 0 * 100 +
          0.3 * specRate (candidateSkills r) 2 (jd.preferred_skills.getD []) * 100)) := by
  have main : calculateSkillsScore jd r =
      jsRound ((0.7 * specRate (candidateSkills r) 3 (jd.required_skills.getD []) +
        0.3 * specRate (candidateSkills r) 2 (jd.preferred_skills.getD [])) * 100) := by
    simp only [calculateSkillsScore]
    rw [skillFold_eq, skillFold_eq]
    congr 1
    have req_case : (if (0 : ℚ) + importanceSum 3 (jd.required_skills.getD []) > 0 then
        ((0 : ℚ) + matchedImportanceSum (candidateSkills r) 3 (jd.required_skills.getD [])) /
          ((0 : ℚ) + importanceSum 3 (jd.required_skills.getD []))
      else 1) = specRate (candidateSkills r) 3 (jd.required_skills.getD []) := by
      rcases eq_or_ne (jd.required_skills.getD []) [] with hnil | hnil
      · simp [hnil, specRate, importanceSum, matchedImportanceSum]
      · have hpos := @importanceSum_pos 3 (by norm_num) _ hnil hreq
        rw [specRate, if_neg hnil, if_pos (by linarith)]
        ring_nf
    have pref_case : (if (0 : ℚ) + importanceSum 2 (jd.preferred_skills.getD []) > 0 then
        ((0 : ℚ) + matchedImportanceSum (candidateSkills r) 2 (jd.preferred_skills.getD [])) /
          ((0 : ℚ) + importanceSum 2 (jd.preferred_skills.getD []))
      else 1) = specRate (candidateSkills r) 2 (jd.preferred_skills.getD []) := by
      rcases eq_or_ne (jd.preferred_skills.getD []) [] with hnil | hnil
      · simp [hnil, specRate, importanceSum, matchedImportanceSum]
      · have hpos := @importanceSum_pos 2 (by norm_num) _ hnil hpref
        rw [specRate, if_neg hnil, if_pos (by linarith)]
        ring_nf
    rw [req_case, pref_case]
    ring
  refine ⟨main, fun hnone => ?_⟩
  have hzero : specRate (candidateSkills r) 3 (jd.required_skills.getD []) = 0 := by
    rw [specRate, if_neg hnone.1]
    have : (jd.required_skills.getD []).filter
        (fun s => hasSkill (candidateSkills r) (skillKey s)) = [] := by
      refine List.filter_eq_nil_iff.mpr ?_
      intro s hs
      simp [hnone.2 s hs]
    rw [matchedImportanceSum, this]
    simp
  rw [main, hzero]
  ring_nf

theorem calculateSkillsScore_spec_witness :
    calculateSkillsScore
        ⟨some [⟨"React".toList, none, some 5⟩], none, none, none⟩
        ⟨some ⟨some ["python".toList], none, none, none, none⟩, none, none⟩ =
      jsRound (0.7 * 0 * 100 + 0.3 * specRate ["python".toList] 2 [] * 100) :=
  (calculateSkillsScore_spec
      ⟨some [⟨"React".toList, none, some 5⟩], none, none, none⟩
      ⟨some ⟨some ["python".toList], none, none, none, none⟩, none, none⟩
      (by intro s hs v hv; simp at hs; subst hs; simp at hv; subst hv; norm_num)
      (by intro s hs; simp at hs)).2
    ⟨by decide, by intro s hs; simp at hs; subst hs; decide⟩

/-! ### C4: the projects dimension -/

/-- The matched technology tokens of a project. -/
def matchedTechs (reqNorm : List Str) (p : Project) : List Str :=
  ((p.technologies.getD []).map normalizeSkillName).filter
    (fun t => reqNorm.any (fun rs => strContains t rs || strContains rs t))

theorem projectRelevance_ne_zero_iff (reqNorm : List Str) (p : Project) :
    projectRelevance reqNorm p ≠ 0 ↔ 0 < (matchedTechs reqNorm p).length := by
  have hd : (0 : ℚ) < max ((((p.technologies.getD []).map normalizeSkillName).length : ℕ) : ℚ) 1 :=
    lt_of_lt_of_le zero_lt_one (le_max_right _ _)
  unfold projectRelevance matchedTechs
  rw [div_ne_zero_iff]
  constructor
  · intro h
    have : ((((p.technologies.getD []).map normalizeSkillName).filter
        (fun t => reqNorm.any (fun rs => strContains t rs || strContains rs t))).length : ℚ) ≠ 0 :=
      h.1
    have hne : (((p.technologies.getD []).map normalizeSkillName).filter
        (fun t => reqNorm.any (fun rs => strContains t rs || strContains rs t))).length ≠ 0 := by
      exact_mod_cast this
    omega
  · intro h
    refine ⟨?_, ne_of_gt hd⟩
    have : (((p.technologies.getD []).map normalizeSkillName).filter
        (fun t => reqNorm.any (fun rs => strContains t rs || strContains rs t))).length ≠ 0 := by
      omega
    exact_mod_cast this

theorem projectFold_eq (reqNorm : List Str) (l : List Project) (a : ℕ) (b : ℚ) :
    l.foldl (projectStep reqNorm) (a, b) =
      (a + (l.filter (fun p => decide (projectRelevance reqNorm p ≠ 0))).length,
       b + (l.map (projectRelevance reqNorm)).sum) := by
  induction l generalizing a b with
  | nil => simp
  | cons p rest ih =>
    rw [List.foldl_cons, ih]
    simp only [List.filter_cons, List.map_cons, List.sum_cons, Prod.mk.injEq]
    by_cases h : 0 < (matchedTechs reqNorm p).length
    · have hrel : projectRelevance reqNorm p ≠ 0 := (projectRelevance_ne_zero_iff _ _).mpr h
      simp only [projectStep, matchedTechs] at *
      rw [if_pos h]
      simp only [decide_eq_true hrel, if_true, List.length_cons]
      refine ⟨by omega, ?_⟩
      unfold projectRelevance
      ring
    · have hrel : ¬ projectRelevance reqNorm p ≠ 0 := fun hc =>
        h ((projectRelevance_ne_zero_iff _ _).mp hc)
      have hrel0 : projectRelevance reqNorm p = 0 := not_not.mp hrel
      simp only [projectStep, matchedTechs] at *
      rw [if_neg h]
      simp only [decide_eq_false hrel, Bool.false_eq_true, if_false]
      exact ⟨by trivial, by rw [hrel0]; ring⟩

/-- The claim's projects-score formula: 50 for zero projects; otherwise
    `round(60 + min(40, avgRelevance*100))` when some project is relevant
    (nonzero relevance fraction), else 40, where `avgRelevance` is the sum
    of relevance fractions over the number of projects. -/
def specProjectsScore (jd : JD) (r : Resume) : ℤ :=
  let projects := r.projects.getD []
  let reqNorm := (jd.required_skills.getD []).map (fun s => normalizeSkillName (skillKey s))
  if projects = [] then 50
  else if projects.any (fun p => decide (projectRelevance reqNorm p ≠ 0)) then
    jsRound (60 + min 40
      ((projects.map (projectRelevance reqNorm)).sum / (projects.length : ℚ) * 100))
  else 40

/-- C4: the projects dimension equals the claim's formula; in particular a
    candidate with zero projects scores exactly 50. -/
theorem calculateProjectsScore_spec (jd : JD) (r : Resume) :
    calculateProjectsScore jd r = specProjectsScore jd r ∧
    (r.projects.getD [] = [] → calculateProjectsScore jd r = 50) := by
  have main : calculateProjectsScore jd r = specProjectsScore jd r := by
    simp only [calculateProjectsScore, specProjectsScore]
    rcases eq_or_ne (r.projects.getD []) [] with hnil | hnil
    · simp [hnil]
    · rw [if_neg (by simp [hnil]), if_neg hnil, projectFold_eq]
      have hlen : ((r.projects.getD []).length = 0) = False := by
        simp [List.length_eq_zero, hnil]
      simp only [Nat.zero_add, zero_add]
      by_cases hany : 0 < ((r.projects.getD []).filter
          (fun p => decide (projectRelevance ((jd.required_skills.getD []).map
            (fun s => normalizeSkillName (skillKey s))) p ≠ 0))).length
      · rw [if_pos hany, if_pos ?side]
        case side =>
          rw [List.any_eq_true]
          have := List.length_pos.mp hany
          obtain ⟨p, hp⟩ := List.exists_mem_of_ne_nil _ this
          exact ⟨p, (List.mem_filter.mp hp).1, (List.mem_filter.mp hp).2⟩
      · rw [if_neg hany, if_neg ?side2]
        · exact jsRound_intCast 40
        case side2 =>
          rw [List.any_eq_true]
          rintro ⟨p, hp, hrel⟩
          refine hany ?_
          refine List.length_pos.mpr ?_
          exact List.ne_nil_of_mem (List.mem_filter.mpr ⟨hp, hrel⟩)
  exact ⟨main, fun h => by simp [calculateProjectsScore, h]⟩

/-! ### C3: the experience dimension -/

/-- The domain-match fraction: matched required domains over all required
    domains (0 when no domain is required). -/
def domainFraction (jd : JD) (r : Resume) : ℚ :=
  let requiredDomains := (jd.experience.bind ExpReq.required_domains).getD []
  let candidateDomains := (r.comp.bind Computed.domains).getD []
  if 0 < requiredDomains.length then
    ((requiredDomains.filter
        (fun d => candidateDomains.any (fun cd => biContains cd d))).length : ℚ) /
      (requiredDomains.length : ℚ)
  else 0

/-- The claim's experience formula, read literally: base 100 when
    `candidateYears ≥ min` (or `min = 0`), else `round(100*c/min)`; minus
    `min(20, (c-max-3)*5)` whenever a maximum is specified and
    `c > max+3`; plus `10 *` domain fraction; clamped to `[0,100]`. -/
def specExperienceScore (jd : JD) (r : Resume) : ℤ :=
  let requiredYears : ℚ := (jd.experience.bind ExpReq.min_years).getD 0
  let maxYears : Option ℚ := jd.experience.bind ExpReq.max_years
  let candidateYears : ℚ := (r.comp.bind Computed.total_experience_years).getD 0
  let base : ℚ :=
    if requiredYears = 0 then 100
    else if candidateYears ≥ requiredYears then 100
    else jsRound (100 * candidateYears / requiredYears)
  let penalty : ℚ :=
    match maxYears with
    | some m =>
      if candidateYears > m + 3 then min 20 ((candidateYears - m - 3) * 5) else 0
    | none => 0
  max 0 (min 100 (jsRound (base - penalty + 10 * domainFraction jd r)))

/-- The amended experience formula: the overqualification penalty applies
    only inside the full-credit branch (`candidateYears ≥ min`) and only
    for a nonzero specified maximum (a zero maximum is falsy, hence treated
    as unspecified). -/
def specExperienceScoreAmended (jd : JD) (r : Resume) : ℤ :=
  let requiredYears : ℚ := (jd.experience.bind ExpReq.min_years).getD 0
  let maxYears : Option ℚ := jd.experience.bind ExpReq.max_years
  let candidateYears : ℚ := (r.comp.bind Computed.total_experience_years).getD 0
  let base : ℚ :=
    if requiredYears = 0 then 100
    else if candidateYears ≥ requiredYears then 100
    else jsRound (100 * candidateYears / requiredYears)
  let penalty : ℚ :=
    match maxYears with
    | some m =>
      if ¬ m = 0 ∧ candidateYears ≥ requiredYears ∧ candidateYears > m + 3 then
        min 20 ((candidateYears - m - 3) * 5)
      else 0
    | none => 0
  max 0 (min 100 (jsRound (base - penalty + 10 * domainFraction jd r)))

/-- A requirement demanding 10 years with a (nonsensical but representable)
    maximum of 2. -/
def jdPartialCredit : JD := ⟨none, none, some ⟨some 10, some 2, none⟩, none⟩

def rSixYears : Resume := ⟨some ⟨none, none, some 6, none, none⟩, none, none⟩

/-- A requirement with `min_years = 0` and `max_years = 0`. -/
def jdZeroMax : JD := ⟨none, none, some ⟨some 0, some 0, none⟩, none⟩

def rFourYears : Resume := ⟨some ⟨none, none, some 4, none, none⟩, none, none⟩

theorem max0_of_nonneg {x : ℤ} (h : 0 ≤ x) : max 0 (min 100 x) = min 100 x :=
  max_eq_right (le_min (by norm_num) h)

/-- C3 counterexample: the claim's formula applies the overqualification
    penalty outside the full-credit branch and for a zero maximum, the code
    does not. With min 10, max 2, candidate 6 years the code scores 60 but
    the claim's formula gives 55; with min 0, max 0, candidate 4 years the
    code scores 100 but the claim's formula gives 95. -/
theorem calculateExperienceScore_claim_counterexample :
    calculateExperienceScore jdPartialCredit rSixYears = 60 ∧
    specExperienceScore jdPartialCredit rSixYears = 55 ∧
    calculateExperienceScore jdZeroMax rFourYears = 100 ∧
    specExperienceScore jdZeroMax rFourYears = 95 := by
  have h60 : jsRound ((60 : ℚ)) = 60 := jsRound_eq_of 60 (by norm_num) (by norm_num)
  have h55 : jsRound ((55 : ℚ)) = 55 := jsRound_eq_of 55 (by norm_num) (by norm_num)
  have h100 : jsRound ((100 : ℚ)) = 100 := jsRound_eq_of 100 (by norm_num) (by norm_num)
  have h95 : jsRound ((95 : ℚ)) = 95 := jsRound_eq_of 95 (by norm_num) (by norm_num)
  refine ⟨?_, ?_, ?_, ?_⟩
  · norm_num [calculateExperienceScore, jdPartialCredit, rSixYears, h60, jsRound_intCast,
      min_def]
  · norm_num [specExperienceScore, jdPartialCredit, rSixYears, domainFraction, h60, h55,
      jsRound_intCast, min_def, max_def]
  · norm_num [calculateExperienceScore, jdZeroMax, rFourYears, h100, jsRound_intCast, min_def]
  · norm_num [specExperienceScore, jdZeroMax, rFourYears, domainFraction, h95,
      jsRound_intCast, min_def, max_def]

/-- C3 (amended): the experience score follows the claim's formula once the
    overqualification penalty is restricted to the full-credit branch
    (`candidateYears ≥ min`) with a specified nonzero maximum. -/
theorem calculateExperienceScore_amended (jd : JD) (r : Resume)
    (_hmin : 0 ≤ (jd.experience.bind ExpReq.min_years).getD 0)
    (hc : 0 ≤ (r.comp.bind Computed.total_experience_years).getD 0) :
    calculateExperienceScore jd r = specExperienceScoreAmended jd r := by
  simp only [calculateExperienceScore, specExperienceScoreAmended, domainFraction]
  set req := (jd.experience.bind ExpReq.min_years).getD 0 with hreq_def
  set c := (r.comp.bind Computed.total_experience_years).getD 0 with hc_def
  set RD := (jd.experience.bind ExpReq.required_domains).getD [] with hRD_def
  set FL := (RD.filter
      (fun d => ((r.comp.bind Computed.domains).getD []).any (fun cd => biContains cd d))).length
    with hFL_def
  set F : ℚ := if 0 < RD.length then (FL : ℚ) / (RD.length : ℚ) else 0 with hF_def
  have hFnn : 0 ≤ F := by
    rw [hF_def]
    split
    · positivity
    · exact le_refl 0
  have hBL : (if 0 < RD.length then (FL : ℚ) / (RD.length : ℚ) * 10 else 0) = 10 * F := by
    rw [hF_def]
    split <;> ring
  rw [hBL]
  by_cases hge : c ≥ req
  · rw [if_pos hge]
    have hbase : (if req = 0 then (100 : ℚ) else if c ≥ req then 100
        else ((jsRound (100 * c / req) : ℤ) : ℚ)) = 100 := by
      rcases eq_or_ne req 0 with h0 | h0
      · rw [if_pos h0]
      · rw [if_neg h0, if_pos hge]
    rw [hbase]
    cases hM : jd.experience.bind ExpReq.max_years with
    | none =>
      dsimp only
      have harg : (100 : ℚ) - 0 + 10 * F = 100 + 10 * F := by ring
      rw [harg, max0_of_nonneg (jsRound_nonneg (by linarith))]
    | some m =>
      dsimp only
      by_cases hpen : ¬ m = 0 ∧ c > m + 3
      · rw [if_pos hpen, if_pos ⟨hpen.1, hge, hpen.2⟩]
        have hP20 : min 20 ((c - m - 3) * 5) ≤ 20 := min_le_left _ _
        rw [max0_of_nonneg (jsRound_nonneg (by linarith))]
      · rw [if_neg hpen, if_neg (by tauto)]
        have harg : (100 : ℚ) - 0 + 10 * F = 100 + 10 * F := by ring
        rw [harg, max0_of_nonneg (jsRound_nonneg (by linarith))]
  · rw [if_neg hge]
    have hreqpos : 0 < req := lt_of_le_of_lt hc (not_le.mp hge)
    have hreqne : ¬ req = 0 := ne_of_gt hreqpos
    rw [if_neg hreqne, if_neg hge]
    have harg : c / req * 100 = 100 * c / req := by ring
    rw [harg]
    have hinner : (0 : ℚ) ≤ ((jsRound (100 * c / req) : ℤ) : ℚ) := by
      have := @jsRound_nonneg (100 * c / req) (by positivity)
      exact_mod_cast this
    cases hM : jd.experience.bind ExpReq.max_years with
    | none =>
      dsimp only
      have harg2 : ((jsRound (100 * c / req) : ℤ) : ℚ) - 0 + 10 * F =
          ((jsRound (100 * c / req) : ℤ) : ℚ) + 10 * F := by ring
      rw [harg2, max0_of_nonneg (jsRound_nonneg (by linarith))]
    | some m =>
      dsimp only
      rw [if_neg (by tauto)]
      have harg2 : ((jsRound (100 * c / req) : ℤ) : ℚ) - 0 + 10 * F =
          ((jsRound (100 * c / req) : ℤ) : ℚ) + 10 * F := by ring
      rw [harg2, max0_of_nonneg (jsRound_nonneg (by linarith))]

/-- The spec's own worked example: min 5 years required, no maximum. -/
def jdMinFive : JD := ⟨none, none, some ⟨some 5, none, none⟩, none⟩

theorem calculateExperienceScore_amended_witness :
    0 ≤ ((jdMinFive.experience.bind ExpReq.min_years).getD 0) ∧
    0 ≤ ((rSixYears.comp.bind Computed.total_experience_years).getD 0) ∧
    calculateExperienceScore jdMinFive rSixYears =
      specExperienceScoreAmended jdMinFive rSixYears ∧
    calculateExperienceScore jdMinFive rSixYears = 100 := by
  have h100 : jsRound ((100 : ℚ)) = 100 := jsRound_eq_of 100 (by norm_num) (by norm_num)
  refine ⟨by norm_num [jdMinFive], by norm_num [rSixYears],
    calculateExperienceScore_amended jdMinFive rSixYears (by norm_num [jdMinFive])
      (by norm_num [rSixYears]), ?_⟩
  norm_num [calculateExperienceScore, jdMinFive, rSixYears, h100, min_def]

theorem calculateMatch_collab_failure_witness :
    70 ≤ (matchScores jdEmpty rEmpty).total ∧
    (calculateMatch (.error .timeout) jdEmpty rEmpty).explanation.recommendation =
      "hire".toList ∧
    (calculateMatch (.error .timeout) jdEmpty rEmpty).scores =
      (calculateMatch (.ok ⟨[], [], [], []⟩) jdEmpty rEmpty).scores := by
  have h70 : 70 ≤ (matchScores jdEmpty rEmpty).total := by rw [matchScores_empty]; decide
  exact ⟨h70,
    (calculateMatch_collab_failure .timeout jdEmpty rEmpty (.ok ⟨[], [], [], []⟩)).2.2.2.2.1 h70,
    (calculateMatch_collab_failure .timeout jdEmpty rEmpty (.ok ⟨[], [], [], []⟩)).2.1⟩

/-! ### C6 and C7: the normalizer pipeline and its (non-)idempotence -/

theorem replaceFirst_of_not_occurs {pat repl l : Str} (h : ¬ pat <:+: l) :
    replaceFirst pat repl l = l := by
  induction l with
  | nil => rfl
  | cons c rest ih =>
    rw [replaceFirst]
    rw [if_neg]
    · rw [ih (fun hc => h (List.infix_cons_iff.mpr (Or.inr hc)))]
    · intro hp
      exact h (List.infix_cons_iff.mpr (Or.inl ( List.isPrefixOf_iff_prefix.mp hp)))

theorem replaceFirst_split {pat repl l : Str} (hne : pat ≠ []) (h : pat <:+: l) :
    ∃ a b, l = a ++ pat ++ b ∧ replaceFirst pat repl l = a ++ repl ++ b := by
  induction l with
  | nil => exact absurd (List.infix_nil.mp h) hne
  | cons c rest ih =>
    by_cases hp : pat.isPrefixOf (c :: rest) = true
    · obtain ⟨t, ht⟩ := List.isPrefixOf_iff_prefix.mp hp
      refine ⟨[], t, by simp [← ht], ?_⟩
      rw [replaceFirst, if_pos hp]
      simp [← ht, List.drop_left]
    · have hrest : pat <:+: rest := by
        rcases List.infix_cons_iff.mp h with hpre | hinf
        · exact absurd ( List.isPrefixOf_iff_prefix.mpr hpre) hp
        · exact hinf
      obtain ⟨a, b, hab, hrf⟩ := ih hrest
      refine ⟨c :: a, b, by simp [hab], ?_⟩
      rw [replaceFirst, if_neg hp, hrf]
      simp

theorem append_last_inj {x y : Str} {u v : Char} (h : x ++ [u] = y ++ [v]) :
    x = y ∧ u = v := by
  have h2 := congrArg List.reverse h
  simp only [List.reverse_append, List.reverse_cons, List.reverse_nil, List.nil_append,
    List.cons_append, List.singleton_append, List.cons.injEq] at h2
  exact ⟨List.reverse_inj.mp h2.2, h2.1⟩

theorem endsJS_append {x y : Str} (h : ['j', 's'] <:+ (x ++ y)) (hy : 2 ≤ y.length) :
    ['j', 's'] <:+ y := by
  obtain ⟨t, ht⟩ := h
  rcases List.append_eq_append_iff.mp ht with ⟨a, ha1, ha2⟩ | ⟨c, hc1, hc2⟩
  · have hlen : a.length + y.length = 2 := by
      have := congrArg List.length ha2
      simpa using this.symm
    have ha : a = [] := by
      have : a.length = 0 := by omega
      exact List.length_eq_zero.mp this
    subst ha
    simp only [List.nil_append] at ha2
    rw [← ha2]
  · exact ⟨c, hc2.symm⟩

theorem endsJS_append_right {x y : Str} (h : ['j', 's'] <:+ y) : ['j', 's'] <:+ (x ++ y) := by
  obtain ⟨t, ht⟩ := h
  exact ⟨x ++ t, by rw [List.append_assoc, ht]⟩

theorem endsJS_singleton {x : Str} {d : Char} (h : ['j', 's'] <:+ (x ++ [d])) :
    ∃ x0, x = x0 ++ ['j'] ∧ d = 's' := by
  obtain ⟨t, ht⟩ := h
  have ht2 : (t ++ ['j']) ++ ['s'] = x ++ [d] := by simpa using ht
  obtain ⟨h1, h2⟩ := append_last_inj ht2
  refine ⟨t, ?_, h2.symm⟩
  exact h1.symm

theorem replaceFirst_not_endsJS {p0 r0 : Str} {rl : Char} {l : Str}
    (hrl : rl ≠ 'j') (h : ¬ ['j', 's'] <:+ l) :
    ¬ ['j', 's'] <:+ replaceFirst (p0 ++ ['j', 's']) (r0 ++ [rl]) l := by
  by_cases hinf : (p0 ++ ['j', 's']) <:+: l
  · obtain ⟨a, b, hab, hrf⟩ := replaceFirst_split (by simp) hinf
    rw [hrf]
    rcases List.eq_nil_or_concat b with rfl | ⟨b0, d, rfl⟩
    · exfalso
      refine h ?_
      rw [hab]
      exact ⟨a ++ p0, by simp⟩
    · simp only [List.concat_eq_append] at hab ⊢
      rcases List.eq_nil_or_concat b0 with rfl | ⟨b1, d2, rfl⟩
      · intro hEnds
        simp only [List.nil_append] at hEnds
        obtain ⟨x0, hx0, hd⟩ := endsJS_singleton hEnds
        have hlast : (a ++ r0) ++ [rl] = x0 ++ ['j'] := by
          rw [List.append_assoc]
          exact hx0
        exact hrl (append_last_inj hlast).2
      · simp only [List.concat_eq_append] at hab ⊢
        intro hEnds
        have hblen : 2 ≤ (b1 ++ [d2] ++ [d]).length := by simp
        have hEb : ['j', 's'] <:+ (b1 ++ [d2] ++ [d]) := endsJS_append hEnds hblen
        refine h ?_
        rw [hab]
        exact endsJS_append_right hEb
  · rw [replaceFirst_of_not_occurs hinf]
    exact h

theorem not_endsJS_jsSuffixRule (l : Str) : ¬ ['j', 's'] <:+ jsSuffixRule l := by
  unfold jsSuffixRule
  split
  · intro hEnds
    have h2 : (2 : ℕ) ≤ ("javascript".toList).length := by decide
    have := endsJS_append hEnds h2
    revert this
    decide
  · next hcond =>
    intro hEnds
    exact hcond (List.isSuffixOf_iff_suffix.mpr hEnds)

theorem mem_replaceFirst {pat repl l : Str} {c : Char}
    (h : c ∈ replaceFirst pat repl l) : c ∈ l ∨ c ∈ repl := by
  induction l with
  | nil => exact Or.inl h
  | cons a rest ih =>
    rw [replaceFirst] at h
    by_cases hp : pat.isPrefixOf (a :: rest) = true
    · rw [if_pos hp] at h
      rcases List.mem_append.mp h with hr | hd
      · exact Or.inr hr
      · exact Or.inl (List.drop_subset _ _ hd)
    · rw [if_neg hp] at h
      rcases List.mem_cons.mp h with rfl | hrest
      · exact Or.inl (List.mem_cons_self _ _)
      · rcases ih hrest with h1 | h2
        · exact Or.inl (List.mem_cons_of_mem _ h1)
        · exact Or.inr h2

theorem mem_jsSuffixRule {l : Str} {c : Char} (h : c ∈ jsSuffixRule l) :
    c ∈ l ∨ c ∈ "javascript".toList := by
  unfold jsSuffixRule at h
  split at h
  · rcases List.mem_append.mp h with ht | hj
    · exact Or.inl (List.take_subset _ _ ht)
    · exact Or.inr hj
  · exact Or.inl h

theorem toLower_toLower (c : Char) : (c.toLower).toLower = c.toLower := by
  unfold Char.toLower
  by_cases hc : c.toNat ≥ 65 ∧ c.toNat ≤ 90
  · rw [if_pos hc]
    have hval : (Char.ofNat (c.toNat + 32)).toNat = c.toNat + 32 := by
      have h1 := hc.1
      have h2 := hc.2
      interval_cases h : c.toNat
      all_goals decide
    rw [if_neg]
    rw [hval]
    omega
  · rw [if_neg hc, if_neg hc]

theorem map_eq_self_of {α : Type} {l : List α} {f : α → α} (h : ∀ c ∈ l, f c = c) :
    l.map f = l := by
  induction l with
  | nil => rfl
  | cons a t ih =>
    rw [List.map_cons, h a (List.mem_cons_self _ _), ih (fun c hc => h c (List.mem_cons_of_mem _ hc))]

theorem norm_chars (x : Str) :
    ∀ c ∈ normalizeSkillName x, Char.toLower c = c ∧ isStripChar c = false := by
  have hjava : ∀ c ∈ "javascript".toList, Char.toLower c = c ∧ isStripChar c = false := by decide
  have hreact : ∀ c ∈ "react".toList, Char.toLower c = c ∧ isStripChar c = false := by decide
  have hnode : ∀ c ∈ "node".toList, Char.toLower c = c ∧ isStripChar c = false := by decide
  unfold normalizeSkillName
  split
  · intro c hc
    simp at hc
  · intro c hc
    rcases mem_replaceFirst hc with hc | hc
    · rcases mem_replaceFirst hc with hc | hc
      · rcases mem_jsSuffixRule hc with hc | hc
        · obtain ⟨hmem, hfilter⟩ := List.mem_filter.mp hc
          obtain ⟨c0, _, rfl⟩ := List.mem_map.mp hmem
          refine ⟨toLower_toLower c0, ?_⟩
          simpa using hfilter
        · exact hjava c hc
      · exact hreact c hc
    · exact hnode c hc

theorem not_endsJS_normalizeSkillName (x : Str) :
    ¬ ['j', 's'] <:+ normalizeSkillName x := by
  unfold normalizeSkillName
  split
  · simp
  · have h0 := not_endsJS_jsSuffixRule (stripChars (x.map Char.toLower))
    have er : "reactjs".toList = "react".toList ++ ['j', 's'] := by decide
    have err : "react".toList = "reac".toList ++ ['t'] := by decide
    have en : "nodejs".toList = "node".toList ++ ['j', 's'] := by decide
    have enn : "node".toList = "nod".toList ++ ['e'] := by decide
    rw [er, err, en, enn]
    exact replaceFirst_not_endsJS (by decide)
      (replaceFirst_not_endsJS (by decide) h0)

/-- C7 (amended): `normalize` is idempotent on every input whose normal
    form contains no residual occurrence of `reactjs` or `nodejs` (the
    general statement fails, see the counterexample): the normal form is
    already lower-case, contains no stripped character, and never ends in
    `js`, so a second pass only re-runs the two alias rewrites. -/
theorem normalizeSkillName_idem (x : Str)
    (h1 : ¬ "reactjs".toList <:+: normalizeSkillName x)
    (h2 : ¬ "nodejs".toList <:+: normalizeSkillName x) :
    normalizeSkillName (normalizeSkillName x) = normalizeSkillName x := by
  rcases eq_or_ne (normalizeSkillName x) [] with hnil | hnil
  · rw [hnil]
    rfl
  · have hchars := norm_chars x
    conv_lhs => rw [normalizeSkillName]
    rw [if_neg (by simpa [List.isEmpty_iff] using hnil)]
    rw [map_eq_self_of (fun c hc => (hchars c hc).1)]
    have hstrip : stripChars (normalizeSkillName x) = normalizeSkillName x :=
      List.filter_eq_self.mpr (fun c hc => by simp [(hchars c hc).2])
    rw [hstrip]
    have hjs : jsSuffixRule (normalizeSkillName x) = normalizeSkillName x := by
      unfold jsSuffixRule
      rw [if_neg]
      intro hc
      exact not_endsJS_normalizeSkillName x (List.isSuffixOf_iff_suffix.mp hc)
    rw [hjs, replaceFirst_of_not_occurs h1, replaceFirst_of_not_occurs h2]

/-- C6 counterexample: both normalizers rewrite a trailing `js` to
    `javascript` before any named alias, so `vuejs` normalizes to
    `vuejavascript` — not to `vue` as the alias table of the claim states. -/
theorem normalizeSkillName_alias_counterexample :
    normalizeSkillName "vuejs".toList = "vuejavascript".toList ∧
    normalizeSkillNameRI "vuejs".toList = "vuejavascript".toList ∧
    normalizeSkillName "vuejs".toList ≠ "vue".toList ∧
    normalizeSkillName "reactjs".toList = "reactjavascript".toList ∧
    normalizeSkillName "reactjs".toList ≠ "react".toList := by decide

/-- C6 (amended): both normalizers lower-case, strip dots, dashes,
    underscores and whitespace, and map empty input to the empty token; the
    rewrites then apply in source order with trailing-`js`→`javascript`
    first, so the named aliases (`reactjs`→`react`, `nodejs`→`node`; plus
    leading `js`→`javascript`, `vuejs`→`vue`, `angularjs`→`angular` in the
    resume-side normalizer only) fire only on occurrences that survive the
    trailing-`js` rewrite; the matching-engine normalizer has no leading-js,
    vuejs or angularjs rules at all. -/
theorem normalizeSkillName_amended_table :
    normalizeSkillName [] = [] ∧
    normalizeSkillNameRI [] = [] ∧
    normalizeSkillName "A.B-C_ d".toList = "abcd".toList ∧
    normalizeSkillName "Vue.JS".toList = "vuejavascript".toList ∧
    normalizeSkillName "Node.js".toList = "nodejavascript".toList ∧
    normalizeSkillName "reactjs".toList = "reactjavascript".toList ∧
    normalizeSkillName "reactjsx".toList = "reactx".toList ∧
    normalizeSkillName "nodejsx".toList = "nodex".toList ∧
    normalizeSkillName "jsx".toList = "jsx".toList ∧
    normalizeSkillNameRI "jsx".toList = "javascriptx".toList ∧
    normalizeSkillNameRI "vuejsx".toList = "vuex".toList ∧
    normalizeSkillNameRI "angularjsx".toList = "angularx".toList := by decide

/-- C7 counterexample: `normalize` is not idempotent — replacing the first
    `reactjs` can expose a second occurrence: `reactjsjsx` normalizes to
    `reactjsx`, which normalizes again to `reactx`. -/
theorem normalizeSkillName_not_idempotent :
    normalizeSkillName (normalizeSkillName "reactjsjsx".toList) ≠
      normalizeSkillName "reactjsjsx".toList ∧
    normalizeSkillName "reactjsjsx".toList = "reactjsx".toList ∧
    normalizeSkillName "reactjsx".toList = "reactx".toList := by decide

theorem normalizeSkillName_idem_witness :
    (¬ "reactjs".toList <:+: normalizeSkillName "python".toList) ∧
    (¬ "nodejs".toList <:+: normalizeSkillName "python".toList) ∧
    normalizeSkillName (normalizeSkillName "python".toList) =
      normalizeSkillName "python".toList :=
  ⟨by decide, by decide, normalizeSkillName_idem "python".toList (by decide) (by decide)⟩

/-! ### C9: candidate comparison -/

theorem selectBest_spec (key : Candidate → ℤ) :
    ∀ (cs : List Candidate) (c : Candidate),
      selectBest key c cs ∈ c :: cs ∧
      (∀ x ∈ c :: cs, key x ≤ key (selectBest key c cs)) ∧
      (c :: cs).find? (fun x => key x == key (selectBest key c cs)) =
        some (selectBest key c cs) := by
  intro cs
  induction cs with
  | nil =>
    intro c
    refine ⟨by simp [selectBest], ?_, ?_⟩
    · intro x hx
      rcases List.mem_cons.mp hx with rfl | h
      · exact le_refl _
      · simp at h
    · simp [selectBest, List.find?_cons_of_pos]
  | cons x rest ih =>
    intro c
    have hstep : selectBest key c (x :: rest) =
        selectBest key (if key x > key c then x else c) rest := rfl
    by_cases hxc : key x > key c
    · rw [hstep, if_pos hxc]
      obtain ⟨hmem, hmax, hfind⟩ := ih x
      have hxw : key x ≤ key (selectBest key x rest) := hmax x (List.mem_cons_self _ _)
      have hcw : key c < key (selectBest key x rest) := lt_of_lt_of_le hxc hxw
      refine ⟨?_, ?_, ?_⟩
      · rcases List.mem_cons.mp hmem with h | h
        · rw [h]
          exact List.mem_cons_of_mem _ (List.mem_cons_self _ _)
        · exact List.mem_cons_of_mem _ (List.mem_cons_of_mem _ h)
      · intro y hy
        rcases List.mem_cons.mp hy with rfl | hy2
        · exact le_of_lt hcw
        · exact hmax y hy2
      · rw [List.find?_cons_of_neg]
        · exact hfind
        · simp [ne_of_lt hcw]
    · rw [hstep, if_neg hxc]
      obtain ⟨hmem, hmax, hfind⟩ := ih c
      have hxle : key x ≤ key c := not_lt.mp hxc
      have hcle : key c ≤ key (selectBest key c rest) := hmax c (List.mem_cons_self _ _)
      refine ⟨?_, ?_, ?_⟩
      · rcases List.mem_cons.mp hmem with h | h
        · rw [h]
          exact List.mem_cons_self _ _
        · exact List.mem_cons_of_mem _ (List.mem_cons_of_mem _ h)
      · intro y hy
        rcases List.mem_cons.mp hy with rfl | hy2
        · exact hcle
        · rcases List.mem_cons.mp hy2 with rfl | hy3
          · exact le_trans hxle hcle
          · exact hmax y (List.mem_cons_of_mem _ hy3)
      · by_cases hpc : key c = key (selectBest key c rest)
        · rw [List.find?_cons_of_pos] at hfind
          · rw [List.find?_cons_of_pos]
            · exact hfind
            · simp [hpc]
          · simp [hpc]
        · rw [List.find?_cons_of_neg] at hfind
          · have hpx : ¬ key x = key (selectBest key c rest) := by
              intro he
              exact hpc (le_antisymm hcle (he ▸ hxle))
            rw [List.find?_cons_of_neg, List.find?_cons_of_neg]
            · exact hfind
            · simp [hpx]
            · simp [hpc]
          · simp [hpc]

/-- C9: `compareCandidates` fails with the insufficient-candidates error
    when fewer than 2 valid (resolvable) candidates are supplied; for 2 or
    more it produces, for each of the four dimensions and overall, a winner
    that is a valid candidate with the maximal score for that key, and that
    is the first candidate in list order attaining that maximal score
    (strict `>` in the reduce keeps the earlier candidate on ties). -/
theorem compareCandidates_props (resolved : List (Option Candidate)) :
    ((resolved.filterMap id).length < 2 →
      compareCandidates resolved = .error .insufficientCandidates) ∧
    (∀ comp, compareCandidates resolved = .ok comp →
      comp.dimensions.length = 4 ∧
      (∀ e ∈ comp.dimensions, ∃ w ∈ resolved.filterMap id,
        e.winner = w.id ∧
        (∀ c ∈ resolved.filterMap id, dimScore e.dimension c ≤ dimScore e.dimension w) ∧
        (resolved.filterMap id).find?
          (fun c => dimScore e.dimension c == dimScore e.dimension w) = some w) ∧
      (∃ w ∈ resolved.filterMap id,
        comp.overallWinner = w.id ∧
        (∀ c ∈ resolved.filterMap id, c.score_total ≤ w.score_total) ∧
        (resolved.filterMap id).find?
          (fun c => c.score_total == w.score_total) = some w)) := by
  rcases hv : resolved.filterMap id with _ | ⟨c1, _ | ⟨c2, rest⟩⟩
  · refine ⟨fun _ => ?_, fun comp hcomp => ?_⟩
    · simp only [compareCandidates, hv]
    · simp only [compareCandidates, hv] at hcomp
      cases hcomp
  · refine ⟨fun _ => ?_, fun comp hcomp => ?_⟩
    · simp only [compareCandidates, hv]
    · simp only [compareCandidates, hv] at hcomp
      cases hcomp
  · refine ⟨fun hlen => ?_, fun comp hcomp => ?_⟩
    · simp only [List.length_cons] at hlen
      omega
    · simp only [compareCandidates, hv] at hcomp
      rw [Except.ok.injEq] at hcomp
      subst hcomp
      refine ⟨by simp, ?_, ?_⟩
      · intro e he
        simp only [List.mem_map] at he
        obtain ⟨d, _, rfl⟩ := he
        obtain ⟨hmem, hmax, hfind⟩ := selectBest_spec (dimScore d) (c2 :: rest) c1
        exact ⟨selectBest (dimScore d) c1 (c2 :: rest), hmem, rfl, hmax, hfind⟩
      · obtain ⟨hmem, hmax, hfind⟩ := selectBest_spec Candidate.score_total (c2 :: rest) c1
        exact ⟨selectBest Candidate.score_total c1 (c2 :: rest), hmem, rfl, hmax, hfind⟩

deriving instance DecidableEq for Except

def candA : Candidate := ⟨"a".toList, "Alice".toList, 80, 90, 70, 60, 50⟩

def candB : Candidate := ⟨"b".toList, "Bella".toList, 85, 90, 60, 70, 40⟩

theorem compareCandidates_props_witness :
    compareCandidates [some candA] = Except.error CompareError.insufficientCandidates ∧
    ∃ comp, compareCandidates [some candA, none, some candB] = Except.ok comp ∧
      ∃ w ∈ ([some candA, none, some candB] : List (Option Candidate)).filterMap id,
        comp.overallWinner = w.id ∧
        (∀ c ∈ ([some candA, none, some candB] : List (Option Candidate)).filterMap id,
          c.score_total ≤ w.score_total) := by
  refine ⟨(compareCandidates_props [some candA]).1 (by decide), ?_⟩
  rcases hc : compareCandidates [some candA, none, some candB] with e | comp
  · cases e
    exact absurd hc (by decide)
  · obtain ⟨w, hw, hwin, hmax, _⟩ :=
      ((compareCandidates_props [some candA, none, some candB]).2 comp hc).2.2
    exact ⟨comp, rfl, w, hw, hwin, hmax⟩
